import Mathlib

/-
Verification of the core algorithms of zfavalive.py: the batch packer
(`generate_batches`), the composite-image tile hasher (`_process_tile`,
`_is_white_square`, the band computation of `_process_image_data`), the
TTL cache (`_is_cache_valid` and the cache branch of `_process_image_data`),
the result aggregator (`_update_results`), and the per-batch error isolation
of `process_batch`.  Machine strings are Lean `String`s, time is measured in
hours as a `Nat`, and the external collaborators (domain validator, SHA-256,
HTTP fetch, image decoding) are parameters of the embedded functions, exactly
at the interface boundary the program uses them.
-/

/-- Configuration constant from the source: the favicon service base URL. -/
def BASE_URL : String := "https://favicon.yandex.net/favicon/"

/-- Configuration constant from the source: maximal rendered URL length. -/
def MAX_URL_LENGTH : Nat := 2200

/-- Configuration constant from the source: cache time-to-live in hours. -/
def CACHE_TTL_HOURS : Nat := 24

/-- The loop of `generate_batches`.  State: remaining valid domains, the
batches emitted so far, the current batch and the running `current_length`
counter, carried exactly as the Python code carries them (note that the
source increments `current_length` by `domain_len + 1` after the append,
because `current_batch` is never empty at that point). -/
def generate_batches_loop (batch_size : Nat) :
    List String → List (List String) → List String → Nat → List (List String)
  | [], batches, current_batch, _ =>
      if current_batch = [] then batches else batches ++ [current_batch]
  | domain :: rest, batches, current_batch, current_length =>
      let domain_len := domain.length
      let needed_length :=
        current_length + domain_len + (if current_batch = [] then 0 else 1)
      if MAX_URL_LENGTH < needed_length ∨ batch_size ≤ current_batch.length then
        generate_batches_loop batch_size rest (batches ++ [current_batch])
          [domain] (BASE_URL.length + domain_len + 1)
      else
        generate_batches_loop batch_size rest batches
          (current_batch ++ [domain]) (current_length + domain_len + 1)

/-- `generate_batches(domains, batch_size)`: filter the input through the
external domain validator `valid`, then pack greedily.  The validator is the
external `tld`-based `is_valid_domain` collaborator, passed as a parameter. -/
def generate_batches (valid : String → Bool) (domains : List String)
    (batch_size : Nat) : List (List String) :=
  generate_batches_loop batch_size (domains.filter valid) [] [] BASE_URL.length

/-- Python `'/'.join(batch)`. -/
def joinSlash : List String → String
  | [] => ""
  | [d] => d
  | d :: rest => d ++ "/" ++ joinSlash rest

/-- The rendered request URL of `process_batch`:
`f"{BASE_URL}{'/'.join(batch)}"`. -/
def renderUrl (batch : List String) : String :=
  BASE_URL ++ joinSlash batch

/-- The length the rendered URL of a batch has: base URL length, plus the
domain lengths, plus one separator byte between consecutive domains. -/
def urlLen (batch : List String) : Nat :=
  BASE_URL.length + (batch.map String.length).sum + (batch.length - 1)

/-- One RGBA pixel, as the 4-channel representation `img.convert('RGBA')`
produces. -/
abbrev RGBA : Type := Nat × Nat × Nat × Nat

/-- A tile (horizontal band of the composite image): its rows of pixels. -/
abbrev Tile : Type := List (List RGBA)

/-- Python `tile.tobytes()`: the raw pixel bytes of a tile, row-major,
4 bytes per pixel. -/
def tobytes (tile : Tile) : List Nat :=
  tile.flatMap (fun row => row.flatMap (fun p => [p.1, p.2.1, p.2.2.1, p.2.2.2]))

/-- `_is_white_square`: every pixel is opaque pure white. -/
def is_white_square (tile : Tile) : Bool :=
  tile.all (fun row => row.all (fun p =>
    p.1 = 255 ∧ p.2.1 = 255 ∧ p.2.2.1 = 255 ∧ p.2.2.2 = 255))

/-- Python string slice `s[:n]`, at the character level. -/
def strTake (s : String) (n : Nat) : String :=
  String.mk (s.data.take n)

/-- Python `s.startswith(p)`, at the character level. -/
def strStartsWith (s p : String) : Bool :=
  p.data.isPrefixOf s.data

/-- `_process_tile(domain, tile, args)`.  The SHA-256 hex digest is the
external hashing collaborator, passed as `hashBytes`; `show_white_hashes`
is the caller-supplied flag; `domain` is carried (and, as in the source,
unused by the computation). -/
def process_tile (hashBytes : List Nat → String) (show_white_hashes : Bool)
    (domain : String) (tile : Tile) : Option String :=
  if is_white_square tile then
    if show_white_hashes then some "NULL" else none
  else
    let original_hash := strTake (hashBytes (tobytes tile)) 8
    if strStartsWith original_hash "5f70bf18" then
      if show_white_hashes then some "NULL" else none
    else
      some original_hash

/-- A cache entry: the stored hash (which may be the absent marker) and its
expiry time, in hours. -/
structure CacheEntry where
  hash : Option String
  expires : Nat
deriving DecidableEq, Repr

/-- One hash group of `self.results`: occurrence count and domain list. -/
structure HashGroup where
  count : Nat
  domains : List String
deriving DecidableEq, Repr

/-- Lookup in a Python dict modelled as an insertion-ordered association
list (`dict.get`). -/
def dictGet {α : Type} : List (String × α) → String → Option α
  | [], _ => none
  | (k, v) :: rest, key => if k = key then some v else dictGet rest key

/-- Assignment `d[key] = v` in a Python dict modelled as an
insertion-ordered association list: overwrite in place, or append at the
end when the key is new. -/
def dictSet {α : Type} : List (String × α) → String → α → List (String × α)
  | [], key, v => [(key, v)]
  | (k, w) :: rest, key, v =>
      if k = key then (key, v) :: rest else (k, w) :: dictSet rest key v

/-- The mutable state of `FaviconAnalyzer` (the fields its algorithms use:
`results`, `seen_entries`, `cache`). -/
structure AnalyzerState where
  results : List (String × HashGroup)
  seen_entries : List (String × String)
  cache : List (String × CacheEntry)
deriving DecidableEq, Repr

/-- `FaviconAnalyzer.__init__` (and `_init_cache`): everything empty. -/
def initState : AnalyzerState := ⟨[], [], []⟩

/-- `_is_cache_valid(entry)`: the current time is strictly before the
entry's expiry. -/
def is_cache_valid (now : Nat) (entry : CacheEntry) : Bool :=
  now < entry.expires

/-- `_update_results(domain, display_hash)`: no-op on a falsy hash or an
already seen pair; otherwise record the pair and bump/create the group
(`setdefault` then increment and append). -/
def update_results (st : AnalyzerState) (domain : String)
    (display_hash : Option String) : AnalyzerState :=
  match display_hash with
  | none => st
  | some h =>
      if h = "" then st
      else if (domain, h) ∈ st.seen_entries then st
      else
        let g := (dictGet st.results h).getD ⟨0, []⟩
        { st with
          seen_entries := (domain, h) :: st.seen_entries
          results := dictSet st.results h ⟨g.count + 1, g.domains ++ [domain]⟩ }

/-- The cache branch of `_process_image_data`, the spec's
`lookupOrCompute`: on a live entry return the stored hash untouched;
otherwise run the tile computation and store its result with expiry
`now + CACHE_TTL_HOURS`.  The third component records whether the tile
computation was invoked. -/
def lookupOrCompute (st : AnalyzerState) (domain : String) (now : Nat)
    (computeFn : Unit → Option String) :
    Option String × AnalyzerState × Bool :=
  match dictGet st.cache domain with
  | some entry =>
      if is_cache_valid now entry then (entry.hash, st, false)
      else
        let h := computeFn ()
        (h, { st with
              cache := dictSet st.cache domain ⟨h, now + CACHE_TTL_HOURS⟩ },
         true)
  | none =>
      let h := computeFn ()
      (h, { st with
            cache := dictSet st.cache domain ⟨h, now + CACHE_TTL_HOURS⟩ },
       true)

/-- The band bounds of `_process_image_data`:
`y1 = idx * tile_height`, `y2 = min(y1 + tile_height, h)`. -/
def tileBounds (tile_height h idx : Nat) : Nat × Nat :=
  (idx * tile_height, min (idx * tile_height + tile_height) h)

/-- All band bounds for an image of height `h` split over `n` domains,
with `tile_height = h / n` as in the source. -/
def bands (h n : Nat) : List (Nat × Nat) :=
  (List.range n).map (tileBounds (h / n) h)

/-- Python truthiness of `display_hash` (a string or `None`). -/
def truthy : Option String → Bool
  | none => false
  | some s => ¬ s = ""

/-- `_process_image_data(img_data, domains, args)` after decoding: walk the
domains with their indices, consult the cache (computing and caching the
band hash on a miss), and record truthy hashes. -/
def process_image_data (st : AnalyzerState) (img : List (List RGBA))
    (domains : List String) (hashBytes : List Nat → String)
    (show_white_hashes : Bool) (now : Nat) : AnalyzerState :=
  let h := img.length
  let tile_height := h / domains.length
  domains.enum.foldl
    (fun st p =>
      let idx := p.1
      let domain := p.2
      let r := lookupOrCompute st domain now (fun _ =>
        let b := tileBounds tile_height h idx
        let tile := (img.drop b.1).take (b.2 - b.1)
        process_tile hashBytes show_white_hashes domain tile)
      let display_hash := r.1
      let st2 := r.2.1
      if truthy display_hash then update_results st2 domain display_hash
      else st2)
    st

/-- The outcome of the HTTP fetch for one batch: a transport failure, or a
status code with the response body. -/
abbrev FetchOutcome : Type := Except Unit (Nat × List Nat)

/-- `process_batch(batch, args)`: fetch the batch URL; only a 200 status
leads to decoding and tile processing, and any failure (transport error,
non-success status, decode failure) leaves the analyzer state unchanged
(the `except` clause swallows it). -/
def process_batch (decode : List Nat → Option (List (List RGBA)))
    (hashBytes : List Nat → String) (show_white_hashes : Bool) (now : Nat)
    (st : AnalyzerState) (batch : List String) (fetch : FetchOutcome) :
    AnalyzerState :=
  match fetch with
  | .error _ => st
  | .ok r =>
      if r.1 = 200 then
        match decode r.2 with
        | some img =>
            process_image_data st img batch hashBytes show_white_hashes now
        | none => st
      else st

/-- The driver loop over all batches (the dispatcher awaits every batch;
the aggregate state after all complete is the fold of `process_batch`). -/
def run_batches (decode : List Nat → Option (List (List RGBA)))
    (hashBytes : List Nat → String) (show_white_hashes : Bool) (now : Nat)
    (st : AnalyzerState) (jobs : List (List String × FetchOutcome)) :
    AnalyzerState :=
  jobs.foldl
    (fun st job =>
      process_batch decode hashBytes show_white_hashes now st job.1 job.2)
    st

/-- A run of the result aggregator alone: a sequence of
`_update_results` calls starting from the fresh analyzer state. -/
def applyRecords (ops : List (String × Option String)) : AnalyzerState :=
  ops.foldl (fun st op => update_results st op.1 op.2) initState

/-- The aggregator invariant: every hash group's count equals the length
of its domain list, the domains in one group are pairwise distinct, and
every recorded domain of a group is covered by the seen-pairs set. -/
def resultsSeenInv (st : AnalyzerState) : Prop :=
  ∀ hsh g, dictGet st.results hsh = some g →
    g.count = g.domains.length ∧ g.domains.Nodup ∧
    ∀ x ∈ g.domains, (x, hsh) ∈ st.seen_entries

/-! ### Helper lemmas -/

theorem tileBounds_eq_of_lt {h n : Nat} (i : Nat) (hi : i < n) :
    tileBounds (h / n) h i = (i * (h / n), (i + 1) * (h / n)) := by
  unfold tileBounds
  have hle : i * (h / n) + h / n ≤ h := by
    have h1 : (i + 1) * (h / n) ≤ n * (h / n) :=
      Nat.mul_le_mul_right _ (Nat.succ_le_of_lt hi)
    have h2 : n * (h / n) ≤ h := by
      rw [Nat.mul_comm]; exact Nat.div_mul_le_self h n
    calc i * (h / n) + h / n = (i + 1) * (h / n) := by ring
      _ ≤ n * (h / n) := h1
      _ ≤ h := h2
  rw [Nat.min_eq_left hle]
  congr 1
  ring

theorem lt_div_succ_mul (y t : Nat) (ht : 0 < t) : y < (y / t + 1) * t := by
  have hm : y % t < t := Nat.mod_lt y ht
  calc y = t * (y / t) + y % t := (Nat.div_add_mod y t).symm
    _ < t * (y / t) + t := by omega
    _ = (y / t + 1) * t := by ring

/-- C1: the claim as frozen is false on the code.  At image height `h = 5`
with `n = 2` domains, the bands are `[0,2)` and `[2,4)`: the last band's
upper bound is `min(1*2+2, 5) = 4`, so the remainder row `4 < 5` lies in no
band and the bands do not cover the full image height. -/
theorem bands_no_remainder_counterexample :
    bands 5 2 = [(0, 2), (2, 4)] ∧
    (∀ p ∈ bands 5 2, ¬ (p.1 ≤ 4 ∧ 4 < p.2)) ∧
    ¬ (4 : Nat) ≥ 5 := by
  refine ⟨by decide, ?_, by decide⟩
  decide

/-- C1 (amended): for `0 < n` the `n` bands over height `h` have
`tile_height = h / n`, band `i` is exactly `[i*(h/n), (i+1)*(h/n))` (the
clamp `min(..., h)` never takes effect), the first band starts at row 0,
every upper bound is at most `h`, the bands are pairwise non-overlapping,
and together they cover exactly the rows below `n * (h / n)`; they cover
the full height whenever `n` divides `h` (the last band does not absorb a
remainder). -/
theorem bands_partition (h n : Nat) (hn : 0 < n) :
    (bands h n).length = n ∧
    (∀ i, i < n → tileBounds (h / n) h i = (i * (h / n), (i + 1) * (h / n))) ∧
    (tileBounds (h / n) h 0).1 = 0 ∧
    (∀ i, i < n → (tileBounds (h / n) h i).2 ≤ h) ∧
    (∀ i j y, i < n → j < n → i ≠ j →
      (tileBounds (h / n) h i).1 ≤ y → y < (tileBounds (h / n) h i).2 →
      ¬ ((tileBounds (h / n) h j).1 ≤ y ∧ y < (tileBounds (h / n) h j).2)) ∧
    (∀ y, y < n * (h / n) →
      ∃ i, i < n ∧ (tileBounds (h / n) h i).1 ≤ y ∧
        y < (tileBounds (h / n) h i).2) ∧
    (h % n = 0 → ∀ y, y < h →
      ∃ i, i < n ∧ (tileBounds (h / n) h i).1 ≤ y ∧
        y < (tileBounds (h / n) h i).2) := by
  have hb := fun i (hi : i < n) => tileBounds_eq_of_lt (h := h) i hi
  have hcover : ∀ y, y < n * (h / n) →
      ∃ i, i < n ∧ (tileBounds (h / n) h i).1 ≤ y ∧
        y < (tileBounds (h / n) h i).2 := by
    intro y hy
    have ht : 0 < h / n := by
      rcases Nat.eq_zero_or_pos (h / n) with h0 | h0
      · rw [h0, Nat.mul_zero] at hy; omega
      · exact h0
    refine ⟨y / (h / n), ?_, ?_, ?_⟩
    · exact (Nat.div_lt_iff_lt_mul ht).2 (by rw [Nat.mul_comm] at hy ⊢; exact hy)
    · rw [hb _ ((Nat.div_lt_iff_lt_mul ht).2 (by rw [Nat.mul_comm] at hy ⊢; exact hy))]
      exact Nat.div_mul_le_self y (h / n)
    · rw [hb _ ((Nat.div_lt_iff_lt_mul ht).2 (by rw [Nat.mul_comm] at hy ⊢; exact hy))]
      exact lt_div_succ_mul y (h / n) ht
  refine ⟨by simp [bands], hb, ?_, ?_, ?_, hcover, ?_⟩
  · simp [tileBounds]
  · intro i hi
    rw [hb i hi]
    have h2 : n * (h / n) ≤ h := by
      rw [Nat.mul_comm]; exact Nat.div_mul_le_self h n
    have h1 : (i + 1) * (h / n) ≤ n * (h / n) :=
      Nat.mul_le_mul_right _ (Nat.succ_le_of_lt hi)
    omega
  · intro i j y hi hj hij hy1 hy2 hyj
    rw [hb i hi] at hy1 hy2
    rw [hb j hj] at hyj
    rcases Nat.lt_or_ge i j with hlt | hge
    · have : (i + 1) * (h / n) ≤ j * (h / n) :=
        Nat.mul_le_mul_right _ (Nat.succ_le_of_lt hlt)
      omega
    · have hlt : j < i := by omega
      have : (j + 1) * (h / n) ≤ i * (h / n) :=
        Nat.mul_le_mul_right _ (Nat.succ_le_of_lt hlt)
      omega
  · intro hmod y hy
    have : n * (h / n) = h := Nat.mul_div_cancel' (Nat.dvd_of_mod_eq_zero hmod)
    exact hcover y (by omega)

/-- C1 witness: at height 6 over 2 domains, row 5 is covered. -/
theorem bands_partition_witness :
    0 < 2 ∧ (6 : Nat) % 2 = 0 ∧ (5 : Nat) < 6 ∧
    (∃ i, i < 2 ∧ (tileBounds (6 / 2) 6 i).1 ≤ 5 ∧
      5 < (tileBounds (6 / 2) 6 i).2) :=
  ⟨by decide, by decide, by decide,
    (bands_partition 6 2 (by decide)).2.2.2.2.2.2 (by decide) 5 (by decide)⟩

theorem joinSlash_length : ∀ b : List String,
    (joinSlash b).length = (b.map String.length).sum + (b.length - 1)
  | [] => by simp [joinSlash]
  | [d] => by simp [joinSlash]
  | d :: e :: rest => by
      have ih := joinSlash_length (e :: rest)
      have hsep : ("/" : String).length = 1 := by decide
      simp only [joinSlash, String.length_append, List.map_cons, List.sum_cons,
        List.length_cons, hsep] at ih ⊢
      omega

theorem renderUrl_length (b : List String) : (renderUrl b).length = urlLen b := by
  simp only [renderUrl, urlLen, String.length_append, joinSlash_length]
  omega

theorem sum_map_length_succ (b : List String) :
    (b.map (fun d => d.length + 1)).sum = (b.map String.length).sum + b.length := by
  induction b with
  | nil => simp
  | cons d rest ih => simp [ih]; omega

theorem generate_batches_loop_join (bs : Nat) : ∀ (rest : List String)
    (batches : List (List String)) (current : List String) (len : Nat),
    (generate_batches_loop bs rest batches current len).flatten =
      batches.flatten ++ current ++ rest
  | [], batches, current, len => by
      by_cases hc : current = [] <;> simp [generate_batches_loop, hc]
  | domain :: rest, batches, current, len => by
      have ih1 := generate_batches_loop_join bs rest (batches ++ [current])
        [domain] (BASE_URL.length + domain.length + 1)
      have ih2 := generate_batches_loop_join bs rest batches
        (current ++ [domain]) (len + domain.length + 1)
      simp only [generate_batches_loop]
      by_cases hcond : MAX_URL_LENGTH < len + domain.length +
          (if current = [] then 0 else 1) ∨ bs ≤ current.length
      · rw [if_pos hcond, ih1]; simp
      · rw [if_neg hcond, ih2]; simp

theorem generate_batches_loop_bounds (bs : Nat) (hbs : 1 ≤ bs) :
    ∀ (rest : List String) (batches : List (List String))
      (current : List String) (len : Nat),
    (∀ d ∈ rest, BASE_URL.length + d.length ≤ MAX_URL_LENGTH) →
    len = BASE_URL.length + (current.map (fun d => d.length + 1)).sum →
    (∀ b ∈ batches, urlLen b ≤ MAX_URL_LENGTH ∧ b.length ≤ bs ∧ b ≠ []) →
    urlLen current ≤ MAX_URL_LENGTH → current.length ≤ bs →
    ∀ b ∈ generate_batches_loop bs rest batches current len,
      urlLen b ≤ MAX_URL_LENGTH ∧ b.length ≤ bs ∧ b ≠ []
  | [], batches, current, len => by
      intro _ _ hbatches hcur hclen b hb
      simp only [generate_batches_loop] at hb
      by_cases hc : current = []
      · rw [if_pos hc] at hb
        exact hbatches b hb
      · rw [if_neg hc] at hb
        rcases List.mem_append.1 hb with h | h
        · exact hbatches b h
        · rcases List.mem_singleton.1 h with rfl
          exact ⟨hcur, hclen, hc⟩
  | domain :: rest, batches, current, len => by
      intro hrest hlen hbatches hcur hclen
      simp only [generate_batches_loop]
      have hdom : BASE_URL.length + domain.length ≤ MAX_URL_LENGTH :=
        hrest domain (List.mem_cons_self _ _)
      have hrest' : ∀ d ∈ rest, BASE_URL.length + d.length ≤ MAX_URL_LENGTH :=
        fun d hd => hrest d (List.mem_cons_of_mem _ hd)
      have hsum := sum_map_length_succ current
      by_cases hcond : MAX_URL_LENGTH < len + domain.length +
          (if current = [] then 0 else 1) ∨ bs ≤ current.length
      · -- close the current batch, start a new one with `domain`
        rw [if_pos hcond]
        have hne : current ≠ [] := by
          intro hnil
          subst hnil
          simp at hlen hcond
          omega
        refine generate_batches_loop_bounds bs hbs rest (batches ++ [current])
          [domain] _ hrest'
          (by simp only [List.map_cons, List.map_nil, List.sum_cons,
                List.sum_nil]; omega) ?_ ?_ ?_
        · intro b' hb'
          rcases List.mem_append.1 hb' with h | h
          · exact hbatches b' h
          · rcases List.mem_singleton.1 h with rfl
            exact ⟨hcur, hclen, hne⟩
        · simp only [urlLen, List.map_cons, List.map_nil, List.sum_cons,
            List.sum_nil, List.length_cons, List.length_nil]
          omega
        · simpa using hbs
      · -- append `domain` to the current batch
        rw [if_neg hcond]
        push_neg at hcond
        obtain ⟨hfit, hroom⟩ := hcond
        refine generate_batches_loop_bounds bs hbs rest batches
          (current ++ [domain]) _ hrest' ?_ hbatches ?_ ?_
        · simp only [List.map_append, List.sum_append, List.map_cons,
            List.map_nil, List.sum_cons, List.sum_nil]
          omega
        · simp only [urlLen, List.map_append, List.sum_append, List.map_cons,
            List.map_nil, List.sum_cons, List.sum_nil, List.length_append,
            List.length_cons, List.length_nil]
          by_cases hc : current = []
          · subst hc
            rw [if_pos rfl] at hfit
            simp only [List.map_nil, List.sum_nil, Nat.add_zero] at hlen
            simp only [List.map_nil, List.sum_nil, List.length_nil]
            omega
          · rw [if_neg hc] at hfit
            have hcl : 1 ≤ current.length := by
              cases current with
              | nil => exact absurd rfl hc
              | cons x xs => simp
            simp only [urlLen] at hcur
            omega
        · simp only [List.length_append, List.length_cons, List.length_nil]
          omega

theorem generate_batches_singleton_overflow (d : String) (bs : Nat)
    (hd : MAX_URL_LENGTH < BASE_URL.length + d.length) :
    generate_batches (fun _ => true) [d] bs = [[], [d]] := by
  have hf : List.filter (fun _ => true) [d] = [d] := by simp
  unfold generate_batches
  rw [hf]
  simp only [generate_batches_loop]
  rw [if_pos (Or.inl (by simpa using hd))]
  simp

/-- C2: the claim as frozen is false on the code.  First input: a single
valid domain of 2166 characters with `maxBatchSize = 20` — it is placed
alone in a batch whose rendered URL has length 35 + 2166 = 2201 > 2200
(the singleton that opens a batch is never length-checked).  Second input:
`["aa.com"]` with `maxBatchSize = 0` — the emitted batch `["aa.com"]` has
1 > 0 domains. -/
theorem generate_batches_bounds_counterexample :
    (generate_batches (fun _ => true) [String.mk (List.replicate 2166 'a')] 20 =
      [[], [String.mk (List.replicate 2166 'a')]]) ∧
    MAX_URL_LENGTH <
      (renderUrl [String.mk (List.replicate 2166 'a')]).length ∧
    ¬ ((generate_batches (fun _ => true) ["aa.com"] 0).getD 1 []).length ≤ 0 := by
  have hbase : BASE_URL.length = 35 := by decide
  have hbig : (String.mk (List.replicate 2166 'a')).length = 2166 := by
    show (List.replicate 2166 'a').length = 2166
    exact List.length_replicate 2166 'a'
  refine ⟨?_, ?_, by decide⟩
  · exact generate_batches_singleton_overflow _ 20
      (by rw [hbase, hbig]; decide)
  · rw [renderUrl_length]
    simp only [urlLen, List.map_cons, List.map_nil, List.sum_cons,
      List.sum_nil, List.length_cons, List.length_nil, hbase, hbig]
    decide

/-- C2 (amended): provided `maxBatchSize ≥ 1` and every domain passing
validation satisfies `len(BASE_URL) + len(domain) ≤ MAX_URL_LENGTH`, every
batch emitted by `generate_batches` has rendered URL length (base URL
length + domain lengths + one separator byte between consecutive domains)
at most `MAX_URL_LENGTH` and at most `maxBatchSize` domains. -/
theorem generate_batches_bounded (valid : String → Bool)
    (domains : List String) (batch_size : Nat) (hbs : 1 ≤ batch_size)
    (hdom : ∀ d ∈ domains, valid d = true →
      BASE_URL.length + d.length ≤ MAX_URL_LENGTH) :
    ∀ b ∈ generate_batches valid domains batch_size,
      (renderUrl b).length ≤ MAX_URL_LENGTH ∧ b.length ≤ batch_size := by
  intro b hb
  have h := generate_batches_loop_bounds batch_size hbs
    (domains.filter valid) [] [] BASE_URL.length
    (fun d hd => hdom d (List.mem_of_mem_filter hd) (List.of_mem_filter hd))
    (by simp) (by simp) (by decide) (by simp) b hb
  rw [renderUrl_length]
  exact ⟨h.1, h.2.1⟩

/-- C2 witness. -/
theorem generate_batches_bounded_witness :
    (renderUrl ["a.com", "b.com"]).length ≤ MAX_URL_LENGTH ∧
    (["a.com", "b.com"] : List String).length ≤ 20 :=
  generate_batches_bounded (fun _ => true) ["a.com", "b.com"] 20
    (by decide) (by decide) ["a.com", "b.com"] (by decide)

/-- C3: concatenating the emitted batches in order yields exactly the
input sequence restricted to the domains passing validation, in the
original order: no reordering, no drops beyond invalid domains, no
duplication. -/
theorem generate_batches_join (valid : String → Bool) (domains : List String)
    (batch_size : Nat) :
    (generate_batches valid domains batch_size).flatten = domains.filter valid := by
  unfold generate_batches
  rw [generate_batches_loop_join]
  simp

/-- C4: the claim as frozen is false on the code.  On input `["aa.com"]`
with `maxBatchSize = 0` the first close event appends the (empty) current
batch without the non-emptiness check, so the emitted batch list is
`[[], ["aa.com"]]` — its first element is an empty batch, whose downstream
`h // len(domains)` would divide by zero. -/
theorem generate_batches_empty_batch_counterexample :
    generate_batches (fun _ => true) ["aa.com"] 0 = [[], ["aa.com"]] ∧
    ((generate_batches (fun _ => true) ["aa.com"] 0).getD 0 ["x"] = []) := by
  constructor <;> decide

/-- C4 (amended): provided `maxBatchSize ≥ 1` and every domain passing
validation satisfies `len(BASE_URL) + len(domain) ≤ MAX_URL_LENGTH`, every
batch emitted by `generate_batches` is non-empty, so the downstream
per-batch division `h // len(domains)` never divides by zero. -/
theorem generate_batches_nonempty (valid : String → Bool)
    (domains : List String) (batch_size : Nat) (hbs : 1 ≤ batch_size)
    (hdom : ∀ d ∈ domains, valid d = true →
      BASE_URL.length + d.length ≤ MAX_URL_LENGTH) :
    ∀ b ∈ generate_batches valid domains batch_size, b ≠ [] := by
  intro b hb
  exact (generate_batches_loop_bounds batch_size hbs
    (domains.filter valid) [] [] BASE_URL.length
    (fun d hd => hdom d (List.mem_of_mem_filter hd) (List.of_mem_filter hd))
    (by simp) (by simp) (by decide) (by simp) b hb).2.2

/-- C4 witness. -/
theorem generate_batches_nonempty_witness : (["a.com"] : List String) ≠ [] :=
  generate_batches_nonempty (fun _ => true) ["a.com"] 20 (by decide)
    (by decide) ["a.com"] (by decide)

theorem dictGet_dictSet_self {α : Type} (m : List (String × α)) (k : String)
    (v : α) : dictGet (dictSet m k v) k = some v := by
  induction m with
  | nil => simp [dictGet, dictSet]
  | cons p rest ih =>
      by_cases hk : p.1 = k
      · simp [dictGet, dictSet, hk]
      · simp [dictGet, dictSet, hk, ih]

theorem dictGet_dictSet_ne {α : Type} (m : List (String × α)) (k k' : String)
    (v : α) (hk : k ≠ k') : dictGet (dictSet m k v) k' = dictGet m k' := by
  induction m with
  | nil => simp [dictGet, dictSet, hk]
  | cons p rest ih =>
      by_cases hp : p.1 = k
      · simp [dictGet, dictSet, hp, hk]
      · simp [dictGet, dictSet, hp, ih]

/-- C5: the TTL cache contract of `_process_image_data` /
`_is_cache_valid`.  (1) A live entry (now strictly before its expiry) is
returned as stored, the state is untouched and the tile computation is not
invoked; (2) with no live entry the tile computation is invoked, its
result stored with expiry `now + CACHE_TTL_HOURS` and returned; (3) a
second lookup within the TTL window returns the first computation's hash
without further computation; (4) a second lookup at or after the expiry
recomputes and overwrites the entry. -/
theorem lookupOrCompute_cache (st : AnalyzerState) (d : String) (t1 t2 : Nat)
    (f g : Unit → Option String) :
    (∀ e, dictGet st.cache d = some e → is_cache_valid t1 e = true →
      lookupOrCompute st d t1 f = (e.hash, st, false)) ∧
    ((∀ e, dictGet st.cache d = some e → is_cache_valid t1 e = false) →
      lookupOrCompute st d t1 f =
        (f (), { st with
          cache := dictSet st.cache d ⟨f (), t1 + CACHE_TTL_HOURS⟩ }, true)) ∧
    ((∀ e, dictGet st.cache d = some e → is_cache_valid t1 e = false) →
      t2 < t1 + CACHE_TTL_HOURS →
      lookupOrCompute (lookupOrCompute st d t1 f).2.1 d t2 g =
        (f (), (lookupOrCompute st d t1 f).2.1, false)) ∧
    ((∀ e, dictGet st.cache d = some e → is_cache_valid t1 e = false) →
      t1 + CACHE_TTL_HOURS ≤ t2 →
      lookupOrCompute (lookupOrCompute st d t1 f).2.1 d t2 g =
        (g (), { (lookupOrCompute st d t1 f).2.1 with
          cache := dictSet (lookupOrCompute st d t1 f).2.1.cache d
            ⟨g (), t2 + CACHE_TTL_HOURS⟩ }, true)) := by
  have hmiss_eq : (∀ e, dictGet st.cache d = some e →
      is_cache_valid t1 e = false) →
      lookupOrCompute st d t1 f =
        (f (), { st with
          cache := dictSet st.cache d ⟨f (), t1 + CACHE_TTL_HOURS⟩ }, true) := by
    intro hmiss
    cases hdg : dictGet st.cache d with
    | none => simp [lookupOrCompute, hdg]
    | some e =>
        have hv := hmiss e hdg
        simp [lookupOrCompute, hdg, hv]
  refine ⟨?_, hmiss_eq, ?_, ?_⟩
  · intro e he hv
    simp [lookupOrCompute, he, hv]
  · intro hmiss ht
    rw [hmiss_eq hmiss]
    have hget : dictGet (dictSet st.cache d ⟨f (), t1 + CACHE_TTL_HOURS⟩) d =
        some ⟨f (), t1 + CACHE_TTL_HOURS⟩ := dictGet_dictSet_self _ _ _
    simp [lookupOrCompute, hget, is_cache_valid, ht]
  · intro hmiss ht
    rw [hmiss_eq hmiss]
    have hget : dictGet (dictSet st.cache d ⟨f (), t1 + CACHE_TTL_HOURS⟩) d =
        some ⟨f (), t1 + CACHE_TTL_HOURS⟩ := dictGet_dictSet_self _ _ _
    have hnv : ¬ t2 < t1 + CACHE_TTL_HOURS := by omega
    simp [lookupOrCompute, hget, is_cache_valid, hnv]

/-- C5 witness: a miss at time 0, a hit at time 1 within the 24-hour TTL. -/
theorem lookupOrCompute_cache_witness :
    lookupOrCompute
        (lookupOrCompute initState "a.com" 0 (fun _ => some "abcd1234")).2.1
        "a.com" 1 (fun _ => some "zzzz9999") =
      (some "abcd1234",
        (lookupOrCompute initState "a.com" 0 (fun _ => some "abcd1234")).2.1,
        false) :=
  (lookupOrCompute_cache initState "a.com" 0 1 (fun _ => some "abcd1234")
      (fun _ => some "zzzz9999")).2.2.1
    (by intro e he; simp [initState, dictGet] at he) (by decide)

/-- C6: the `_update_results` contract.  Recording is a no-op on the
absent marker, on the empty hash and on an already seen pair; a fresh pair
is added to the seen-set and its group is created/incremented with the
domain appended; recording the same pair twice equals recording it once,
so a pair contributes to exactly one group (the one keyed by its hash) at
most once. -/
theorem update_results_record (st : AnalyzerState) (d h : String) :
    update_results st d none = st ∧
    update_results st d (some "") = st ∧
    ((d, h) ∈ st.seen_entries → update_results st d (some h) = st) ∧
    (h ≠ "" → (d, h) ∉ st.seen_entries →
      (update_results st d (some h)).seen_entries = (d, h) :: st.seen_entries ∧
      dictGet (update_results st d (some h)).results h =
        some ⟨((dictGet st.results h).getD ⟨0, []⟩).count + 1,
              ((dictGet st.results h).getD ⟨0, []⟩).domains ++ [d]⟩) ∧
    update_results (update_results st d (some h)) d (some h) =
      update_results st d (some h) := by
  refine ⟨rfl, by simp [update_results], ?_, ?_, ?_⟩
  · intro hmem
    by_cases hh : h = "" <;> simp [update_results, hh, hmem]
  · intro hh hmem
    constructor
    · simp [update_results, hh, hmem]
    · simp [update_results, hh, hmem, dictGet_dictSet_self]
  · by_cases hh : h = ""
    · simp [update_results, hh]
    · by_cases hmem : (d, h) ∈ st.seen_entries
      · simp [update_results, hh, hmem]
      · simp [update_results, hh, hmem]

/-- C6 witness. -/
theorem update_results_record_witness :
    (update_results initState "a.com" (some "cafe0123")).seen_entries =
      [("a.com", "cafe0123")] ∧
    dictGet (update_results initState "a.com" (some "cafe0123")).results
      "cafe0123" = some ⟨1, ["a.com"]⟩ ∧
    update_results (update_results initState "a.com" (some "cafe0123"))
      "a.com" (some "cafe0123") =
      update_results initState "a.com" (some "cafe0123") := by
  have h := update_results_record initState "a.com" "cafe0123"
  have h4 := h.2.2.2.1 (by decide) (by simp [initState])
  exact ⟨h4.1, by simpa [initState, dictGet] using h4.2, h.2.2.2.2⟩

/-- C7: `_process_tile` is a pure function of the tile's pixel bytes: the
domain argument does not influence the result, so two distinct domains
with pixel-identical non-blank tiles get the same truncated hash, and
recording both aggregates them into one hash group with count 2 and both
domains listed in first-seen order. -/
theorem process_tile_deterministic_grouping (hb : List Nat → String)
    (sw : Bool) (d1 d2 h : String) (tile : Tile) (hne : d1 ≠ d2)
    (hwhite : is_white_square tile = false)
    (hres : process_tile hb sw d1 tile = some h) (hh : h ≠ "") :
    process_tile hb sw d2 tile = some h ∧
    dictGet (update_results (update_results initState d1 (some h)) d2
      (some h)).results h = some ⟨2, [d1, d2]⟩ := by
  have hdet : process_tile hb sw d2 tile = process_tile hb sw d1 tile := rfl
  refine ⟨hdet.trans hres, ?_⟩
  have hne2 : ¬ ((d2, h) = (d1, h)) := by
    intro he
    exact hne ((Prod.mk.injEq _ _ _ _ ▸ he).1.symm)
  have h1 : update_results initState d1 (some h) =
      ⟨[(h, ⟨1, [d1]⟩)], [(d1, h)], []⟩ := by
    simp [update_results, initState, hh, dictGet, dictSet]
  rw [h1]
  simp [update_results, hh, hne2, dictGet, dictSet]

/-- C7 witness. -/
theorem process_tile_deterministic_grouping_witness :
    process_tile (fun _ => "00e1ff2a77") false "b.com" [[(0, 0, 0, 255)]] =
      some "00e1ff2a" ∧
    dictGet (update_results (update_results initState "a.com"
      (some "00e1ff2a")) "b.com" (some "00e1ff2a")).results "00e1ff2a" =
      some ⟨2, ["a.com", "b.com"]⟩ :=
  process_tile_deterministic_grouping (fun _ => "00e1ff2a77") false
    "a.com" "b.com" "00e1ff2a" [[(0, 0, 0, 255)]] (by decide) (by decide)
    (by decide) (by decide)

/-- C8: a tile whose every pixel is opaque pure white yields the "no icon"
sentinel — the literal placeholder `NULL` when the show-white-hashes flag
is set, the absent marker otherwise; a non-white tile whose truncated hash
starts with the provider-default prefix `5f70bf18` is classified
identically; and the absent marker is never recorded (`_update_results`
leaves the state unchanged on it, so the domain is dropped). -/
theorem process_tile_white_sentinel (hb : List Nat → String) (sw : Bool)
    (d : String) (tile : Tile) :
    ((∀ row ∈ tile, ∀ p ∈ row,
        p = (((255 : Nat), (255 : Nat), (255 : Nat), (255 : Nat)) : RGBA)) →
      process_tile hb sw d tile = (if sw then some "NULL" else none)) ∧
    (is_white_square tile = false →
      strStartsWith (strTake (hb (tobytes tile)) 8) "5f70bf18" = true →
      process_tile hb sw d tile = (if sw then some "NULL" else none)) ∧
    (∀ st, update_results st d none = st) := by
  refine ⟨?_, ?_, fun _ => rfl⟩
  · intro hall
    have hw : is_white_square tile = true := by
      simp only [is_white_square, List.all_eq_true, decide_eq_true_eq]
      intro row hrow p hp
      rw [hall row hrow p hp]
      exact ⟨rfl, rfl, rfl, rfl⟩
    by_cases hsw : sw <;> simp [process_tile, hw, hsw]
  · intro hwhite hpre
    by_cases hsw : sw <;> simp [process_tile, hwhite, hpre, hsw]

/-- C8 witness: the all-white 1-pixel tile with the flag set. -/
theorem process_tile_white_sentinel_witness :
    process_tile (fun _ => "ffffffff00") true "a.com"
      [[(255, 255, 255, 255)]] = some "NULL" := by
  have h := (process_tile_white_sentinel (fun _ => "ffffffff00") true
    "a.com" [[(255, 255, 255, 255)]]).1 (by decide)
  simpa using h

/-- C9: a batch whose fetch fails (transport error or a status other than
200) leaves the analyzer state exactly as it was — none of its domains are
hashed or recorded, the failure is absorbed — and removing such a batch
from the dispatch list does not change the final aggregate state, so the
other batches are processed as if the failing one were absent. -/
theorem process_batch_failure_isolated
    (decode : List Nat → Option (List (List RGBA)))
    (hashBytes : List Nat → String) (sw : Bool) (now : Nat)
    (st : AnalyzerState) (batch : List String) (fetch : FetchOutcome)
    (pre post : List (List String × FetchOutcome))
    (hfail : ∀ status body, fetch = Except.ok (status, body) → status ≠ 200) :
    (∀ s : AnalyzerState,
      process_batch decode hashBytes sw now s batch fetch = s) ∧
    run_batches decode hashBytes sw now st (pre ++ (batch, fetch) :: post) =
      run_batches decode hashBytes sw now st (pre ++ post) := by
  have hpb : ∀ s : AnalyzerState,
      process_batch decode hashBytes sw now s batch fetch = s := by
    intro s
    cases fetch with
    | error e => rfl
    | ok r =>
        have hs : r.1 ≠ 200 := hfail r.1 r.2 (by rw [Prod.mk.eta])
        simp [process_batch, hs]
  refine ⟨hpb, ?_⟩
  unfold run_batches
  rw [List.foldl_append, List.foldl_append, List.foldl_cons, hpb]

/-- C9 witness: a 404 response contributes nothing. -/
theorem process_batch_failure_isolated_witness :
    run_batches (fun _ => none) (fun _ => "") false 0 initState
      [(["a.com"], Except.ok (404, []))] =
    run_batches (fun _ => none) (fun _ => "") false 0 initState [] :=
  (process_batch_failure_isolated (fun _ => none) (fun _ => "") false 0
    initState ["a.com"] (Except.ok (404, [])) [] []
    (by intro s b he; cases he; decide)).2

theorem update_results_preserves_inv (st : AnalyzerState) (d : String)
    (oh : Option String) (hinv : resultsSeenInv st) :
    resultsSeenInv (update_results st d oh) := by
  cases oh with
  | none => exact hinv
  | some h =>
      by_cases hh : h = ""
      · simpa [update_results, hh] using hinv
      by_cases hmem : (d, h) ∈ st.seen_entries
      · simpa [update_results, hh, hmem] using hinv
      intro hsh g hg
      simp only [update_results, hh, hmem, if_neg, if_false] at hg ⊢
      by_cases hkey : h = hsh
      · subst hkey
        rw [dictGet_dictSet_self] at hg
        cases hg0 : dictGet st.results h with
        | none =>
            rw [hg0] at hg
            simp only [Option.getD_none] at hg
            cases hg
            refine ⟨rfl, by simp, ?_⟩
            intro x hx
            simp at hx
            subst hx
            exact List.mem_cons_self _ _
        | some gOld =>
            rw [hg0] at hg
            simp only [Option.getD_some] at hg
            obtain ⟨hc, hnd, hseen⟩ := hinv h gOld hg0
            cases hg
            refine ⟨by simp [hc], ?_, ?_⟩
            · refine List.Nodup.append hnd (by simp) ?_
              intro x hx hx'
              rcases List.mem_singleton.1 hx' with rfl
              exact hmem (hseen x hx)
            · intro x hx
              rcases List.mem_append.1 hx with hx | hx
              · exact List.mem_cons_of_mem _ (hseen x hx)
              · rcases List.mem_singleton.1 hx with rfl
                exact List.mem_cons_self _ _
      · rw [dictGet_dictSet_ne _ _ _ _ hkey] at hg
        obtain ⟨hc, hnd, hseen⟩ := hinv hsh g hg
        exact ⟨hc, hnd, fun x hx => List.mem_cons_of_mem _ (hseen x hx)⟩

theorem foldl_update_results_inv (ops : List (String × Option String)) :
    ∀ st : AnalyzerState, resultsSeenInv st →
      resultsSeenInv (ops.foldl (fun st op => update_results st op.1 op.2) st) := by
  induction ops with
  | nil => intro st hst; exact hst
  | cons op rest ih =>
      intro st hst
      exact ih _ (update_results_preserves_inv st op.1 op.2 hst)

/-- C10: after any sequence of record operations starting from the fresh
analyzer state, every hash group's occurrence count equals the length of
its domain list and the domains within one group are pairwise distinct;
the property holds for the empty initial results and is preserved by every
`_update_results` call. -/
theorem applyRecords_group_invariant (ops : List (String × Option String)) :
    ∀ hsh g, dictGet (applyRecords ops).results hsh = some g →
      g.count = g.domains.length ∧ g.domains.Nodup := by
  intro hsh g hg
  have hinit : resultsSeenInv initState := by
    intro hsh g hg
    simp [initState, dictGet] at hg
  have h := foldl_update_results_inv ops initState hinit hsh g hg
  exact ⟨h.1, h.2.1⟩

/-- C10 witness. -/
theorem applyRecords_group_invariant_witness :
    (⟨2, ["a.com", "b.com"]⟩ : HashGroup).count =
      (⟨2, ["a.com", "b.com"]⟩ : HashGroup).domains.length ∧
    (⟨2, ["a.com", "b.com"]⟩ : HashGroup).domains.Nodup :=
  applyRecords_group_invariant
    [("a.com", some "ab12cd34"), ("b.com", some "ab12cd34")]
    "ab12cd34" ⟨2, ["a.com", "b.com"]⟩ (by decide)

